import Mathlib

/-!
Verification development for the stock-dude repository.

We shallowly embed the market-data pipeline of the repository:
the TDX `.day` binary decoder, the series merger, the dividend
(qfq/hfq) adjuster and indicator passes of
`src/convert_tdx_to_json.ts`, the selection filter of
`src/select_stock.ts`, and the backtest state machine plus summary
reduction of the backtest module.

Numeric idealization: the source uses JavaScript IEEE-754 doubles; we
embed all numeric fields as exact rationals (ℚ).  Division by zero in
ℚ yields 0 (the source only hits such divisions in degenerate cases
that the theorems below either avoid or discuss explicitly).
JavaScript `Math.round` rounds half toward positive infinity, which we
embed as `⌊x + 1/2⌋`.
-/

/-- One daily bar, mirroring the `StockDaily` interface
(`src/types/stock.ts`).  The field `open` is a Lean keyword, so the
open price is named `open_`.  The optional indicator fields of the
source are modelled as separate functions over the series rather than
as mutable fields. -/
structure StockDaily where
  date : String
  open_ : ℚ
  high : ℚ
  low : ℚ
  close : ℚ
  turnover : ℚ
  volume : ℚ
  deriving Repr, DecidableEq, Inhabited

/-- One dividend/split record, mirroring `DividendRecord`
(fields as used by `readDayFile`).  The source keys the record by
`d.date.toISOString().slice(0, 10)`; we carry that ISO date string
directly. -/
structure DividendRecord where
  code : String
  date : String
  cash : ℚ
  bonus : ℚ
  dispatch : ℚ
  splite : ℚ
  price : ℚ
  deriving Repr, DecidableEq, Inhabited

/-- One simulated round trip, mirroring the `TradeRecord` interface. -/
structure TradeRecord where
  code : String
  name : String
  buyDate : String
  sellDate : String
  buyPrice : ℚ
  sellPrice : ℚ
  holdDays : ℤ
  returnPct : ℚ
  deriving Repr, DecidableEq, Inhabited

/-! ## Binary record decoder (`readDayFile`, decode loop)

The source iterates `for (let offset = 0; offset < buf.length; offset
+= 32)` and calls `buf.readInt32LE` at offsets 0,4,8,12,16,20,24
(the 8th, reserved field of a record is never read).  Node's
`readInt32LE` throws a range error when fewer than 4 bytes are
available at the requested offset, which aborts decoding; hence a
record is decoded successfully exactly when at least 28 bytes remain.
We model the byte buffer as a list of naturals (byte values) and the
thrown range error as `Except.error`. -/

/-- Little-endian signed 32-bit read at `offset`, as Node's
`readInt32LE` computes it on in-range offsets. -/
def readInt32LE (buf : List ℕ) (offset : ℕ) : ℤ :=
  let n := buf.getD offset 0 + 256 * buf.getD (offset + 1) 0 +
    65536 * buf.getD (offset + 2) 0 + 16777216 * buf.getD (offset + 3) 0
  if n < 2 ^ 31 then (n : ℤ) else (n : ℤ) - 2 ^ 32

/-- `formatDate` of the source: `YYYYMMDD` integer to `YYYY-MM-DD`
via string slicing. -/
def formatDate (raw : ℤ) : String :=
  let s := toString raw
  s.take 4 ++ "-" ++ (s.drop 4).take 2 ++ "-" ++ ((s.drop 6).take 2)

/-- Decode one record from the front of `chunk` (a buffer suffix with
at least 28 bytes): seven little-endian int32 reads, prices and
turnover divided by 100, volume kept raw, date reformatted. -/
def decodeOneRecord (chunk : List ℕ) : StockDaily :=
  { date := formatDate (readInt32LE chunk 0)
    open_ := (readInt32LE chunk 4 : ℚ) / 100
    high := (readInt32LE chunk 8 : ℚ) / 100
    low := (readInt32LE chunk 12 : ℚ) / 100
    close := (readInt32LE chunk 16 : ℚ) / 100
    turnover := (readInt32LE chunk 20 : ℚ) / 100
    volume := (readInt32LE chunk 24 : ℚ) }

/-- Fueled decode loop; the fuel is only a structural-recursion
device (each iteration consumes at least 28 bytes, so fuel
`buf.length` always suffices, see `decodeChunks_congr`). -/
def decodeChunks : ℕ → List ℕ → Except String (List StockDaily)
  | _, [] => Except.ok []
  | 0, _ :: _ => Except.error "fuel exhausted"
  | fuel + 1, b :: rest =>
    let buf := b :: rest
    if 28 ≤ buf.length then
      match decodeChunks fuel (buf.drop 32) with
      | Except.ok recs => Except.ok (decodeOneRecord buf :: recs)
      | Except.error e => Except.error e
    else
      Except.error "range error"

/-- The decode phase of `readDayFile` on a raw byte buffer. -/
def decodeDayBuf (buf : List ℕ) : Except String (List StockDaily) :=
  decodeChunks buf.length buf

/-! ## Series merger (`convertAllDayFiles`, merge block) -/

/-- Date comparison used by the merge sort comparator
`(a, b) => a.date.localeCompare(b.date)`; for the ISO date strings
involved, locale comparison is plain lexicographic string order. -/
def dateLe (a b : StockDaily) : Prop := a.date ≤ b.date

instance : DecidableRel dateLe := fun a b => by
  unfold dateLe; infer_instance

instance : IsTotal StockDaily dateLe := ⟨fun a b => le_total a.date b.date⟩

instance : IsTrans StockDaily dateLe := ⟨fun _ _ _ h1 h2 => le_trans h1 h2⟩

/-- The merge step of `convertAllDayFiles`: keep every existing entry,
append only the new entries whose date is not already present, and
sort ascending by date.  JavaScript's `Array.prototype.sort` is a
stable comparison sort; we embed it as insertion sort (also stable,
and extensionally identical to any stable sort under this
comparator). -/
def mergeSeries (existingData newData : List StockDaily) : List StockDaily :=
  let existingDates := existingData.map (fun d => d.date)
  let onlyNew := newData.filter (fun d => ! existingDates.contains d.date)
  List.insertionSort dateLe (existingData ++ onlyNew)

/-! ## Dividend adjuster (`readDayFile`, qfq/hfq blocks)

The source builds `dividendMap` with `new Map(...)` keyed by ISO date
(later records for the same date overwrite earlier ones, hence
last-match lookup) and a `factorMap` from date to running factor
(`Map.set` overwrites, hence our factor maps cons the newest entry at
the front and use first-match lookup).  `x || 1` on a number is 1 when
`x` is absent or 0. -/

/-- Last-match dividend lookup, as `new Map(list).get(date)`. -/
def findDividend (dividends : List DividendRecord) (date : String) : Option DividendRecord :=
  dividends.reverse.find? (fun d => d.date == date)

/-- JavaScript `v || 1` applied to an optional map lookup. -/
def jsOr1 (v : Option ℚ) : ℚ :=
  match v with
  | none => 1
  | some x => if x = 0 then 1 else x

/-- JavaScript `Math.round(num * 100) / 100`. -/
def roundToPenny (num : ℚ) : ℚ := (⌊num * 100 + 1 / 2⌋ : ℚ) / 100

/-- The per-event factor ratio of the qfq (forward) pass, computed
from the event fields and the close of the bar carrying the event. -/
def qfqRatio (div : DividendRecord) (closeV : ℚ) : ℚ :=
  let bonusR := div.bonus / 10
  let dispatchR := div.dispatch / 10
  let splitR := if div.splite = 0 then 1 else div.splite
  let cashV := div.cash / 10
  let adjustedClose := closeV / splitR
  let totalValue := adjustedClose * 1 + div.price * dispatchR
  let newPrice := (totalValue - cashV) / (1 + bonusR + dispatchR)
  adjustedClose / newPrice

/-- Backward traversal of the qfq pass: the argument list is the
series reversed (last bar first); `rest.isEmpty` encodes the source's
`i > 0` guard (an earlier bar exists).  The factor is recorded for the
current date before the event (if any) multiplies into it. -/
def qfqPass (dividends : List DividendRecord) :
    List StockDaily → ℚ → List (String × ℚ) → List (String × ℚ)
  | [], _, fm => fm
  | r :: rest, factor, fm =>
    let fm2 := (r.date, factor) :: fm
    let factor2 :=
      match findDividend dividends r.date with
      | some div => if rest.isEmpty then factor else factor * qfqRatio div r.close
      | none => factor
    qfqPass dividends rest factor2 fm2

/-- Application step of the qfq pass: rescale the five price/turnover
fields by `baseFactor / factor(date)` and round to the cent; date and
volume are untouched. -/
def applyQfqFactor (fm : List (String × ℚ)) (baseFactor : ℚ) (rec : StockDaily) : StockDaily :=
  let f := jsOr1 (fm.lookup rec.date)
  let appliedFactor := baseFactor / f
  { rec with
    open_ := roundToPenny (rec.open_ * appliedFactor)
    high := roundToPenny (rec.high * appliedFactor)
    low := roundToPenny (rec.low * appliedFactor)
    close := roundToPenny (rec.close * appliedFactor)
    turnover := roundToPenny (rec.turnover * appliedFactor) }

/-- Forward (qfq) adjustment of a series.  On an empty series the
source is partial: `records[records.length - 1].date` throws a
TypeError before any output is produced, so this total model (which
reads the last record through `getD` and returns `[]`) is faithful
only for nonempty series; every theorem about the qfq branch
therefore carries a nonempty-series hypothesis. -/
def qfqAdjust (records : List StockDaily) (dividends : List DividendRecord) : List StockDaily :=
  let fm := qfqPass dividends records.reverse 1 []
  let lastDate := (records.getD (records.length - 1) default).date
  let baseFactor := jsOr1 (fm.lookup lastDate)
  records.map (applyQfqFactor fm baseFactor)

/-- Forward traversal of the hfq pass, recording the updated running
factor for each date. -/
def hfqPass (dividends : List DividendRecord) :
    List StockDaily → ℚ → List (String × ℚ) → List (String × ℚ)
  | [], _, fm => fm
  | r :: rest, factor, fm =>
    let factor2 :=
      match findDividend dividends r.date with
      | some div => factor * ((r.close + div.cash / 10) / r.close)
      | none => factor
    hfqPass dividends rest factor2 ((r.date, factor2) :: fm)

/-- Application step of the hfq pass: multiply the five
price/turnover fields by the recorded factor of the bar's date. -/
def applyHfqFactor (fm : List (String × ℚ)) (rec : StockDaily) : StockDaily :=
  let f := jsOr1 (fm.lookup rec.date)
  { rec with
    open_ := roundToPenny (rec.open_ * f)
    high := roundToPenny (rec.high * f)
    low := roundToPenny (rec.low * f)
    close := roundToPenny (rec.close * f)
    turnover := roundToPenny (rec.turnover * f) }

/-- Backward (hfq) adjustment of a series. -/
def hfqAdjust (records : List StockDaily) (dividends : List DividendRecord) : List StockDaily :=
  let fm := hfqPass dividends records 1 []
  records.map (applyHfqFactor fm)

/-- Adjustment mode of `readDayFile`. -/
inductive AdjustType
  | none
  | qfq
  | hfq
  deriving DecidableEq, Repr

/-- The full adjustment stage of `readDayFile`, including the
enclosing gate `adjustType !== 'none' && dividendArr.length > 0 &&
code` and the per-instrument filter on the dividend table. -/
def adjustRecords (records : List StockDaily) (dividendArr : List DividendRecord)
    (code : String) (adjustType : AdjustType) : List StockDaily :=
  if adjustType ≠ AdjustType.none ∧ dividendArr ≠ [] ∧ code ≠ "" then
    let dividends := dividendArr.filter (fun d => d.code == code)
    match adjustType with
    | AdjustType.qfq => qfqAdjust records dividends
    | AdjustType.hfq => hfqAdjust records dividends
    | AdjustType.none => records
  else records

/-! ## Chip-distribution indicator (`readDayFile`, 90-bar chip loop) -/

/-- Ordering on (price, volume) pairs used by the source comparator
`(a, b) => a.price - b.price` (ascending by price, stable). -/
def pvLe (a b : ℚ × ℚ) : Prop := a.1 ≤ b.1

instance : DecidableRel pvLe := fun a b => by
  unfold pvLe; infer_instance

instance : IsTotal (ℚ × ℚ) pvLe := ⟨fun a b => le_total a.1 b.1⟩

instance : IsTrans (ℚ × ℚ) pvLe := ⟨fun _ _ _ h1 h2 => le_trans h1 h2⟩

/-- The trailing window `records.slice(Math.max(0, i - 89), i + 1)`. -/
def chipWindow (records : List StockDaily) (i : ℕ) : List StockDaily :=
  (records.take (i + 1)).drop (i - 89)

/-- The cumulative scan of the chip loop: accumulate volume over the
price-sorted pairs; set `lower` at the first pair where the cumulated
volume reaches 5% of the total, and return (with `upper` set, i.e. the
source's `break`) at the first pair where it reaches 95%. -/
def chipScan : List (ℚ × ℚ) → ℚ → ℚ → Option ℚ → Option ℚ × Option ℚ
  | [], _, _, lower => (lower, none)
  | pv :: rest, totalVol, cumVol, lower =>
    let cum2 := cumVol + pv.2
    let lower2 := if lower = none ∧ totalVol * (5 / 100) ≤ cum2 then some pv.1 else lower
    if totalVol * (95 / 100) ≤ cum2 then (lower2, some pv.1)
    else chipScan rest totalVol cum2 lower2

/-- Lower/upper chip bounds for bar `i`. -/
def chipBounds (records : List StockDaily) (i : ℕ) : Option ℚ × Option ℚ :=
  let priceVolume :=
    List.insertionSort pvLe ((chipWindow records i).map (fun r => (r.close, r.volume)))
  let totalVol := (priceVolume.map (fun pv => pv.2)).sum
  chipScan priceVolume totalVol 0 none

/-- `chipRange90` of bar `i` (`null` modelled as `none`). -/
def chipRange90 (records : List StockDaily) (i : ℕ) : Option (ℚ × ℚ) :=
  match chipBounds records i with
  | (some lower, some upper) => some (lower, upper)
  | _ => none

/-- `chipConcentration90` of bar `i`: `(upper - lower)` over the
window's final close (1 substituted when that close is 0). -/
def chipConcentration90 (records : List StockDaily) (i : ℕ) : Option ℚ :=
  match chipBounds records i with
  | (some lower, some upper) =>
    let window := chipWindow records i
    let lastClose := (window.getD (window.length - 1) default).close
    some ((upper - lower) / (if lastClose = 0 then 1 else lastClose))
  | _ => none

/-- Total volume of the trailing 90-bar window of bar `i` (the
source's `totalVol`, which sums the same multiset before sorting
changes nothing). -/
def windowTotalVol (records : List StockDaily) (i : ℕ) : ℚ :=
  ((chipWindow records i).map (fun r => r.volume)).sum

/-! ## Selection filter (`select_stock.ts`, `checkStockWithPrint`)

The debug logging of the source is pure I/O and is dropped; the
returned boolean is embedded faithfully, with each early `return
false` as a nested conditional. -/

/-- Simple mean of the last `days` closes, the source's local `ma`:
`stockData.slice(-days).reduce((s, d) => s + d.close, 0) / days`. -/
def maOf (stockData : List StockDaily) (days : ℕ) : ℚ :=
  (((stockData.drop (stockData.length - days)).map (fun d => d.close)).sum) / days

/-- JavaScript `Math.max(...list)` for the nonempty lists on which the
source applies it (on the empty list the source would give negative
infinity, which never occurs under the 250-bar guard). -/
def jsMax : List ℚ → ℚ
  | [] => 0
  | x :: xs => xs.foldl max x

/-- One iteration of the source's limit-up counting loop; the state is
`(limitUpCount, maxConsecutive)`.  The literal `0.099` is idealized as
`99/1000`. -/
def limitUpStep (stockData : List StockDaily) (st : ℕ × ℕ) (i : ℕ) : ℕ × ℕ :=
  let d := stockData.getD i default
  let prev := stockData.getD (i - 1) default
  if 0 < i ∧ (99 / 1000 : ℚ) ≤ (d.close - prev.close) / prev.close then
    (st.1 + 1, max st.2 (st.1 + 1))
  else
    (0, st.2)

/-- Largest run of consecutive ≥9.9% gains among the last five bars
(the source's `maxConsecutive` after its loop over
`stockData.length - 5 .. stockData.length - 1`). -/
def maxConsecutiveLimitUp (stockData : List StockDaily) : ℕ :=
  (((List.range 5).map (fun k => stockData.length - 5 + k)).foldl
    (limitUpStep stockData) (0, 0)).2

/-- Whether the character list starts with the two characters `ST`. -/
def startsWithST : List Char → Bool
  | 'S' :: 'T' :: _ => true
  | _ => false

/-- Whether the character list contains `ST` as a contiguous block. -/
def containsST : List Char → Bool
  | [] => false
  | c :: rest => startsWithST (c :: rest) || containsST rest

/-- JavaScript `stockName.includes('ST')`. -/
def hasST (stockName : String) : Bool := containsST stockName.data

/-- The source's `avgVol5`: mean volume over the five bars preceding
the last (`stockData.slice(-6, -1)`). -/
def avgVol5 (stockData : List StockDaily) : ℚ :=
  ((((stockData.drop (stockData.length - 6)).take 5).map (fun d => d.volume)).sum) / 5

/-- The last bar, `stockData[stockData.length - 1]`. -/
def lastBar (stockData : List StockDaily) : StockDaily :=
  stockData.getD (stockData.length - 1) default

/-- The selection predicate `checkStockWithPrint` of
`select_stock.ts`, logging dropped; each early `return false` is one
nested conditional. -/
def checkStock (stockData : List StockDaily) (stockName : String) : Bool :=
  if stockData.length < 250 then false
  else if ¬ ((lastBar stockData).close > maOf stockData 5 ∧
      (lastBar stockData).close > maOf stockData 10) then false
  else if ¬ (maOf stockData 5 > (stockData.getD (stockData.length - 6) default).close ∧
      maOf stockData 10 > (stockData.getD (stockData.length - 11) default).close) then false
  else if (lastBar stockData).close < maOf stockData 250 then false
  else if ¬ ((lastBar stockData).volume > avgVol5 stockData * (3 / 2)) then false
  else if ¬ ((lastBar stockData).close > (lastBar stockData).open_) then false
  else if (lastBar stockData).close <
      jsMax ((stockData.drop (stockData.length - 20)).map (fun d => d.close)) then false
  else if 3 ≤ maxConsecutiveLimitUp stockData then false
  else if hasST stockName then false
  else true

/-! ## Backtest engine (`backtestMultiTrades`) and summary reduction -/

/-- The source's `sma(arr, period)[i]`: `NaN` for the first
`period - 1` indices (embedded as `none`; every comparison against
`NaN` in the source is false, matched below), else the trailing-window
mean. -/
def sma (arr : List ℚ) (period : ℕ) (i : ℕ) : Option ℚ :=
  if i + 1 < period then none
  else some ((((arr.take (i + 1)).drop (i + 1 - period)).sum) / period)

/-- Scan state of `backtestMultiTrades`. -/
structure BState where
  trades : List TradeRecord
  holding : Bool
  buyIndex : ℤ
  buyPrice : ℚ
  buyDate : String
  deriving Repr, DecidableEq, Inhabited

/-- Initial scan state (`holding = false`, `buyIndex = -1`,
`buyPrice = 0`, `buyDate = ''`). -/
def initBState : BState := ⟨[], false, -1, 0, ""⟩

/-- One iteration of the scan loop of `backtestMultiTrades` at bar
index `i`. -/
def btStep (code name : String) (data : List StockDaily) (st : BState) (i : ℕ) : BState :=
  let curr := data.getD i default
  let closes := data.map (fun d => d.close)
  let volumes := data.map (fun d => d.volume)
  if st.holding = false then
    let prevHighs := (closes.take i).drop (i - 20)
    let max20 := jsMax prevHighs
    let volRat : ℚ :=
      match sma volumes 5 i with
      | some v => if v > 0 then curr.volume / v else 0
      | none => 0
    if curr.close > max20 ∧ volRat > 3 / 2 then
      { st with
        holding := true
        buyIndex := (i : ℤ)
        buyPrice := curr.close
        buyDate := curr.date }
    else st
  else
    let exitNow : Bool :=
      match sma closes 10 i with
      | some m => curr.close < m
      | none => false
    if exitNow then
      let sellPrice := curr.close
      let holdDays := (i : ℤ) - st.buyIndex
      let returnPct := (sellPrice - st.buyPrice) / st.buyPrice * 100
      { trades := st.trades ++
          [⟨code, name, st.buyDate, curr.date, st.buyPrice, sellPrice, holdDays, returnPct⟩],
        holding := false, buyIndex := -1, buyPrice := st.buyPrice, buyDate := st.buyDate }
    else st

/-- The scan loop over bar indices `20 .. data.length - 1`. -/
def btLoop (code name : String) (data : List StockDaily) : BState :=
  ((List.range (data.length - 20)).map (fun k => k + 20)).foldl (btStep code name data) initBState

/-- `backtestMultiTrades`: minimum-history guard, scan loop, and
end-of-series forced close. -/
def backtestMultiTrades (code name : String) (data : List StockDaily) : List TradeRecord :=
  if data.length < 30 then []
  else
    let st := btLoop code name data
    if st.holding = true ∧ 0 ≤ st.buyIndex then
      let last := data.getD (data.length - 1) default
      let sellPrice := last.close
      let holdDays := ((data.length : ℤ) - 1) - st.buyIndex
      let returnPct := (sellPrice - st.buyPrice) / st.buyPrice * 100
      st.trades ++
        [⟨code, name, st.buyDate, last.date, st.buyPrice, sellPrice, holdDays, returnPct⟩]
    else st.trades

/-- Per-instrument aggregate, mirroring the summary entry built in
the backtest module's `main`. -/
structure InstrumentSummary where
  totalReturnPct : ℚ
  tradeCount : ℕ
  avgReturnPct : ℚ
  totalHoldDays : ℤ
  deriving Repr, DecidableEq

/-- The summary reduction of the backtest module's `main`. -/
def summarize (result : List TradeRecord) : InstrumentSummary :=
  let totalReturnPct := (result.map (fun r => r.returnPct)).sum
  let tradeCount := result.length
  let avgReturnPct := if tradeCount > 0 then totalReturnPct / tradeCount else 0
  let totalHoldDays := (result.map (fun r => r.holdDays)).sum
  ⟨totalReturnPct, tradeCount, avgReturnPct, totalHoldDays⟩

/-- Ghost view of a trade record as a pair of bar indices: the buy
and sell dates are the dates of the two bars, in order, within the
series. -/
def tradeOfIndices (data : List StockDaily) (t : TradeRecord) (p : ℕ × ℕ) : Prop :=
  t.buyDate = (data.getD p.1 default).date ∧ t.sellDate = (data.getD p.2 default).date ∧
    p.1 ≤ p.2 ∧ p.2 < data.length

/-- Scan-loop invariant for the backtest non-overlap proof: the
trades emitted so far are matched, in order, by a chain of index
pairs ending below the cursor `n`, and a held position's buy index is
a bar index below `n` and above every emitted pair's sell index. -/
def BInv (data : List StockDaily) (st : BState) (n : ℕ) : Prop :=
  ∃ ps : List (ℕ × ℕ),
    List.Forall₂ (tradeOfIndices data) st.trades ps ∧
    List.Chain' (fun p q => p.2 < q.1) ps ∧
    (∀ p ∈ ps, p.2 < n) ∧
    (st.holding = true → ∃ bi : ℕ, st.buyIndex = (bi : ℤ) ∧ bi < n ∧
      st.buyDate = (data.getD bi default).date ∧ ∀ p ∈ ps, p.2 < bi)

/-! ## Concrete instances used by the theorems and witnesses below -/

/-- A flat bar: all four prices equal to `c`. -/
def mkBar (d : String) (c t v : ℚ) : StockDaily := ⟨d, c, c, c, c, t, v⟩

/-- The 3-bar series of the repository's own test
(`test/convert_tdx_to_json.test.ts`): closes 10.00, 9.90, 10.20. -/
def s3 : List StockDaily :=
  [mkBar "2024-01-03" 10 10000 1000,
   mkBar "2024-01-04" (99 / 10) 9900 1000,
   mkBar "2024-01-05" (102 / 10) 10200 1000]

/-- The test's dividend event: cash 1.0 per 10 shares at the 2nd bar,
bonus 0, dispatch 0, split 1, price 0. -/
def div1 : DividendRecord := ⟨"600000.SH", "2024-01-04", 1, 0, 0, 1, 0⟩

/-- A single bar with volume 0. -/
def zeroVolBar : StockDaily := ⟨"2024-01-01", 10, 10, 10, 10, 100, 0⟩

/-- A 28-byte buffer: one record truncated to its seven read fields
(date 20240105, prices 10.00, turnover 50.00, volume 300), with the
4-byte reserved field missing. -/
def buf28 : List ℕ :=
  [233, 214, 52, 1] ++ [232, 3, 0, 0] ++ [232, 3, 0, 0] ++ [232, 3, 0, 0] ++
    [232, 3, 0, 0] ++ [136, 19, 0, 0] ++ [44, 1, 0, 0]

/-- The same record padded to the full 32-byte layout. -/
def buf32 : List ℕ := buf28 ++ [0, 0, 0, 0]

/-- A one-bar existing series. -/
def e1 : List StockDaily := [mkBar "2024-01-01" 10 1000 100]

/-- A batch overlapping `e1` on 2024-01-01 with different values. -/
def b1 : List StockDaily :=
  [mkBar "2024-01-01" 11 1100 110, mkBar "2024-01-02" 12 1200 120]

/-- A concrete trade record. -/
def tr0 : TradeRecord := ⟨"c", "n", "2024-01-02", "2024-01-05", 10, 11, 3, 10⟩

/-- A 30-bar series with a 20-bar breakout and volume spike at index
20 and no close below the 10-bar mean afterwards, so the backtest is
still holding when the series ends. -/
def data30 : List StockDaily :=
  [mkBar "d01" 0 0 0, mkBar "d02" 0 0 0, mkBar "d03" 0 0 0, mkBar "d04" 0 0 0,
   mkBar "d05" 0 0 0, mkBar "d06" 0 0 0, mkBar "d07" 0 0 0, mkBar "d08" 0 0 0,
   mkBar "d09" 0 0 0, mkBar "d10" 0 0 0, mkBar "d11" 0 0 0, mkBar "d12" 0 0 0,
   mkBar "d13" 0 0 0, mkBar "d14" 0 0 0, mkBar "d15" 0 0 0, mkBar "d16" 0 0 0,
   mkBar "d17" 0 0 0, mkBar "d18" 0 0 0, mkBar "d19" 0 0 0, mkBar "d20" 0 0 0,
   mkBar "d21" 1 0 1, mkBar "d22" 1 0 0, mkBar "d23" 1 0 0, mkBar "d24" 1 0 0,
   mkBar "d25" 1 0 0, mkBar "d26" 1 0 0, mkBar "d27" 1 0 0, mkBar "d28" 1 0 0,
   mkBar "d29" 1 0 0, mkBar "d30" 1 0 0]

/-- A 250-bar constant series (used only to instantiate the selection
filter's minimum-history hypothesis). -/
def data250 : List StockDaily := List.replicate 250 (mkBar "2024-01-01" 10 1000 100)

/-! ## Shared helper lemmas -/

/-- A fold preserves any per-state invariant preserved by its step. -/
theorem foldl_inv {α β : Type} (P : β → Prop) (f : β → α → β)
    (hf : ∀ st a, P st → P (f st a)) : ∀ (l : List α) (st : β), P st → P (l.foldl f st)
  | [], _, h => h
  | a :: l, st, h => foldl_inv P f hf l (f st a) (hf st a h)

/-- In a list of nonnegative rationals with zero sum, every element is
zero. -/
theorem list_sum_zero_of_nonneg : ∀ {l : List ℚ}, (∀ x ∈ l, 0 ≤ x) → l.sum = 0 →
    ∀ x ∈ l, x = 0
  | [], _, _, _, hx => absurd hx (List.not_mem_nil _)
  | a :: l, hnn, h0, x, hx => by
    have ha : 0 ≤ a := hnn a (List.mem_cons_self a l)
    have hl : 0 ≤ l.sum := List.sum_nonneg (fun y hy => hnn y (List.mem_cons_of_mem a hy))
    have hsum : a + l.sum = 0 := by simpa using h0
    have ha0 : a = 0 := by linarith
    have hl0 : l.sum = 0 := by linarith
    rcases List.mem_cons.mp hx with h | h
    · exact h ▸ ha0
    · exact list_sum_zero_of_nonneg (fun y hy => hnn y (List.mem_cons_of_mem a hy)) hl0 x h

/-- A list whose elements are all zero sums to zero. -/
theorem list_sum_eq_zero : ∀ {l : List ℚ}, (∀ x ∈ l, x = 0) → l.sum = 0
  | [], _ => rfl
  | a :: l, h => by
    have := h a (List.mem_cons_self a l)
    have := list_sum_eq_zero (fun y hy => h y (List.mem_cons_of_mem a hy))
    simp [*]

/-- The JavaScript-style fallback `v || 1` is never zero. -/
theorem jsOr1_ne_zero (v : Option ℚ) : jsOr1 v ≠ 0 := by
  unfold jsOr1
  match v with
  | none => norm_num
  | some x =>
    by_cases hx : x = 0
    · simp [hx]
    · simp [hx]

/-- Rounding to the cent leaves an exact multiple of a cent unchanged. -/
theorem roundToPenny_cent (k : ℤ) : roundToPenny ((k : ℚ) / 100) = (k : ℚ) / 100 := by
  unfold roundToPenny
  rw [div_mul_cancel₀ _ (by norm_num : (100 : ℚ) ≠ 0), Int.floor_int_add]
  norm_num

/-- Indexing a mapped list through `getD` at an in-range index. -/
theorem getD_map_lt {α β : Type} [Inhabited α] [Inhabited β] (f : α → β) (l : List α) (i : ℕ)
    (hi : i < l.length) : (l.map f).getD i default = f (l.getD i default) := by
  rw [List.getD_eq_getElem _ _ (by simpa using hi), List.getD_eq_getElem _ _ hi,
    List.getElem_map]

/-- C3: for the 3-bar series with closes [10.00, 9.90, 10.20] and one
cash dividend of 1.0 per 10 shares dated at the 2nd bar (bonus 0,
dispatch 0, split 1, price 0): mode `none` leaves the closes
unchanged, mode qfq yields closes [9.90, 9.90, 10.20] and mode hfq
yields closes [10.00, 10.00, 10.30] (each rounded to 2 decimal
places, exactly as the source's rounding produces). -/
theorem adjust_concrete_case :
    (adjustRecords s3 [div1] "600000.SH" AdjustType.none).map (fun r => r.close) =
      [10, 99 / 10, 51 / 5]
    ∧ (adjustRecords s3 [div1] "600000.SH" AdjustType.qfq).map (fun r => r.close) =
      [99 / 10, 99 / 10, 51 / 5]
    ∧ (adjustRecords s3 [div1] "600000.SH" AdjustType.hfq).map (fun r => r.close) =
      [10, 10, 103 / 10] := by
  refine ⟨?_, ?_, ?_⟩
  · simp [adjustRecords, s3, div1, mkBar]
    norm_num
  · simp [adjustRecords, qfqAdjust, qfqPass, qfqRatio, applyQfqFactor, findDividend,
      jsOr1, roundToPenny, s3, div1, mkBar, List.lookup]
    norm_num
  · simp [adjustRecords, hfqAdjust, hfqPass, applyHfqFactor, findDividend,
      jsOr1, roundToPenny, s3, div1, mkBar, List.lookup]
    norm_num

/-- C9: the summary of a trade list has totalReturnPct the sum of the
returnPct fields, tradeCount the number of trades, totalHoldDays the
sum of the holdDays fields; avgReturnPct times tradeCount equals
totalReturnPct whenever tradeCount is positive (exactly, in our
rational embedding), and avgReturnPct is 0 when tradeCount is 0. -/
theorem summarize_consistency (result : List TradeRecord) :
    (summarize result).totalReturnPct = (result.map (fun r => r.returnPct)).sum
    ∧ (summarize result).tradeCount = result.length
    ∧ (summarize result).totalHoldDays = (result.map (fun r => r.holdDays)).sum
    ∧ (0 < (summarize result).tradeCount →
        (summarize result).avgReturnPct * ((summarize result).tradeCount : ℚ) =
          (summarize result).totalReturnPct)
    ∧ ((summarize result).tradeCount = 0 → (summarize result).avgReturnPct = 0) := by
  refine ⟨rfl, rfl, rfl, ?_, ?_⟩
  · intro h
    have h0 : 0 < result.length := h
    have hne : ((result.length : ℚ)) ≠ 0 := Nat.cast_ne_zero.mpr h0.ne'
    simp only [summarize, if_pos h0]
    exact div_mul_cancel₀ _ hne
  · intro h
    have h0 : result.length = 0 := h
    simp [summarize, h0]

/-- C9 witness: at a concrete one-trade list, avgReturnPct times
tradeCount equals totalReturnPct. -/
theorem summarize_consistency_witness :
    (summarize [tr0]).avgReturnPct * ((summarize [tr0]).tradeCount : ℚ) =
      (summarize [tr0]).totalReturnPct :=
  (summarize_consistency [tr0]).2.2.2.1 (by simp [summarize])

/-- C10: for every nonempty series (on the empty series the source's
qfq branch throws before producing output, so no adjusted series
exists there), every adjustment mode (in particular qfq and hfq)
preserves the number of bars and, at every position, the bar's date
and volume: only open/high/low/close/turnover are rescaled. -/
theorem adjust_frame (records : List StockDaily) (dividendArr : List DividendRecord)
    (code : String) (adjustType : AdjustType) (_hne : records ≠ []) :
    (adjustRecords records dividendArr code adjustType).length = records.length
    ∧ ∀ i, i < records.length →
      ((adjustRecords records dividendArr code adjustType).getD i default).date =
          (records.getD i default).date
      ∧ ((adjustRecords records dividendArr code adjustType).getD i default).volume =
          (records.getD i default).volume := by
  unfold adjustRecords
  by_cases hgate : adjustType ≠ AdjustType.none ∧ dividendArr ≠ [] ∧ code ≠ ""
  · rw [if_pos hgate]
    match adjustType with
    | AdjustType.none =>
      exact ⟨rfl, fun i _ => ⟨rfl, rfl⟩⟩
    | AdjustType.qfq =>
      refine ⟨by simp [qfqAdjust], fun i hi => ?_⟩
      unfold qfqAdjust
      rw [getD_map_lt _ _ _ hi]
      exact ⟨rfl, rfl⟩
    | AdjustType.hfq =>
      refine ⟨by simp [hfqAdjust], fun i hi => ?_⟩
      unfold hfqAdjust
      rw [getD_map_lt _ _ _ hi]
      exact ⟨rfl, rfl⟩
  · rw [if_neg hgate]
    exact ⟨rfl, fun i _ => ⟨rfl, rfl⟩⟩

/-- C10 witness: at the concrete test series under qfq, bar 0 keeps
its date and volume. -/
theorem adjust_frame_witness :
    ((adjustRecords s3 [div1] "600000.SH" AdjustType.qfq).getD 0 default).date =
      (s3.getD 0 default).date
    ∧ ((adjustRecords s3 [div1] "600000.SH" AdjustType.qfq).getD 0 default).volume =
      (s3.getD 0 default).volume :=
  (adjust_frame s3 [div1] "600000.SH" AdjustType.qfq (by simp [s3])).2 0 (by simp [s3])


/-- Core chip-distribution fact shared by the C1 theorems: when the
trailing window of bar `i` has zero total volume (and volumes are
nonnegative), the cumulative scan fires at the very first sorted
entry for both the 5% and the 95% threshold, so both bounds equal the
head price of the sorted window. -/
theorem chipBounds_zero_vol (records : List StockDaily) (i : ℕ)
    (hi : i < records.length) (hnn : ∀ r ∈ records, 0 ≤ r.volume)
    (h0 : windowTotalVol records i = 0) :
    ∃ pv rest,
      List.insertionSort pvLe ((chipWindow records i).map (fun r => (r.close, r.volume))) =
        pv :: rest
      ∧ chipBounds records i = (some pv.1, some pv.1) := by
  have hsub : ∀ r ∈ chipWindow records i, r ∈ records := by
    intro r hr
    exact ((List.drop_sublist _ _).trans (List.take_sublist _ _)).subset hr
  have hz : ∀ r ∈ chipWindow records i, r.volume = 0 := by
    intro r hr
    exact list_sum_zero_of_nonneg
      (fun x hx => by
        obtain ⟨u, hu, hux⟩ := List.mem_map.mp hx
        exact hux ▸ hnn u (hsub u hu))
      h0 r.volume (List.mem_map.mpr ⟨r, hr, rfl⟩)
  have hwlen : 0 < (chipWindow records i).length := by
    unfold chipWindow
    rw [List.length_drop, List.length_take]
    omega
  obtain ⟨pv, rest, hcons⟩ : ∃ pv rest,
      List.insertionSort pvLe ((chipWindow records i).map (fun r => (r.close, r.volume))) =
        pv :: rest := by
    apply List.exists_cons_of_ne_nil
    intro hnil
    have hlen := List.length_insertionSort
      (r := pvLe) ((chipWindow records i).map (fun r => (r.close, r.volume)))
    rw [hnil] at hlen
    simp at hlen
    omega
  have hpvz : ∀ q ∈ pv :: rest, q.2 = 0 := by
    intro q hq
    rw [← hcons, List.mem_insertionSort] at hq
    obtain ⟨r, hr, hrq⟩ := List.mem_map.mp hq
    rw [← hrq]
    exact hz r hr
  have hpv2 : pv.2 = 0 := hpvz pv (List.mem_cons_self pv rest)
  have htot : (List.map (fun q => q.2) (pv :: rest)).sum = 0 := by
    refine list_sum_eq_zero ?_
    intro x hx
    obtain ⟨q, hq, hqx⟩ := List.mem_map.mp hx
    exact hqx ▸ hpvz q hq
  refine ⟨pv, rest, hcons, ?_⟩
  have hb : chipBounds records i =
      chipScan (pv :: rest) ((List.map (fun q => q.2) (pv :: rest)).sum) 0 none := by
    simp only [chipBounds]
    rw [hcons]
  rw [hb, htot]
  simp [chipScan, hpv2]

/-- C1 counterexample: for a 1-bar series whose trailing 90-bar
window has zero total volume, the source does NOT produce null: the
cumulative volume 0 already satisfies `cumVol >= totalVol * 0.05`
(0 >= 0) at the first sorted entry, so both bounds are found,
chipRange90 is [10, 10] and chipConcentration90 is 0, refuting the
claim that zero total volume yields null. -/
theorem chip_zero_volume_counterexample :
    windowTotalVol [zeroVolBar] 0 = 0
    ∧ chipRange90 [zeroVolBar] 0 = some (10, 10)
    ∧ chipConcentration90 [zeroVolBar] 0 = some 0 := by
  have hb : chipBounds [zeroVolBar] 0 = (some 10, some 10) := by
    have hsort : List.insertionSort pvLe
        ((chipWindow [zeroVolBar] 0).map (fun r => (r.close, r.volume))) = [((10 : ℚ), (0 : ℚ))] := by
      simp [chipWindow, zeroVolBar, List.insertionSort, List.orderedInsert]
    have hbe : chipBounds [zeroVolBar] 0 =
        chipScan [((10 : ℚ), (0 : ℚ))] ((List.map (fun q => q.2) [((10 : ℚ), (0 : ℚ))]).sum) 0 none := by
      simp only [chipBounds]
      rw [hsort]
    rw [hbe]
    simp [chipScan]
  refine ⟨by simp [windowTotalVol, chipWindow, zeroVolBar], ?_, ?_⟩
  · unfold chipRange90
    rw [hb]
  · unfold chipConcentration90
    rw [hb]
    simp

/-- C1 amended: if the chip computation finds no lower/upper bound
then both outputs are null (that is how `chipRange90` and
`chipConcentration90` are produced), but a zero-total-volume window
is not such a case: for every bar of a series with nonnegative
volumes whose trailing 90-bar window has zero total volume, both
bounds are found at the window's lowest close `p`, so chipRange90 is
the degenerate pair (p, p) and chipConcentration90 is 0 — neither is
null. -/
theorem chip_zero_volume_amended (records : List StockDaily) (i : ℕ)
    (hi : i < records.length) (hnn : ∀ r ∈ records, 0 ≤ r.volume)
    (h0 : windowTotalVol records i = 0) :
    ∃ p, chipRange90 records i = some (p, p) ∧ chipConcentration90 records i = some 0 := by
  obtain ⟨pv, rest, _, hbounds⟩ := chipBounds_zero_vol records i hi hnn h0
  refine ⟨pv.1, ?_, ?_⟩
  · unfold chipRange90
    rw [hbounds]
  · unfold chipConcentration90
    rw [hbounds]
    simp

/-- C1 amended witness: at the concrete 1-bar zero-volume series the
amended statement holds. -/
theorem chip_zero_volume_amended_witness :
    ∃ p, chipRange90 [zeroVolBar] 0 = some (p, p)
      ∧ chipConcentration90 [zeroVolBar] 0 = some 0 :=
  chip_zero_volume_amended [zeroVolBar] 0 (by simp)
    (by intro r hr; simp [zeroVolBar] at hr; simp [hr])
    (by simp [windowTotalVol, chipWindow, zeroVolBar])

/-- C4: for every non-empty series (whose last close is an exact
multiple of a cent, as every decoded close is) and every set of
corporate-action events, forward (qfq) adjustment leaves the most
recent bar's close unchanged: the base factor and the last bar's own
factor are the same map lookup, so the applied factor is exactly 1. -/
theorem qfq_anchor_last_close (records : List StockDaily) (dividendArr : List DividendRecord)
    (code : String) (hne : records ≠ [])
    (hcent : ∃ k : ℤ, (records.getD (records.length - 1) default).close = (k : ℚ) / 100) :
    ((adjustRecords records dividendArr code AdjustType.qfq).getD (records.length - 1)
        default).close = (records.getD (records.length - 1) default).close := by
  obtain ⟨k, hk⟩ := hcent
  have hlen : records.length - 1 < records.length := by
    have := List.length_pos.mpr hne
    omega
  unfold adjustRecords
  by_cases hgate : AdjustType.qfq ≠ AdjustType.none ∧ dividendArr ≠ [] ∧ code ≠ ""
  · rw [if_pos hgate]
    show ((qfqAdjust records (dividendArr.filter (fun d => d.code == code))).getD
      (records.length - 1) default).close = _
    unfold qfqAdjust
    rw [getD_map_lt _ _ _ hlen]
    simp only [applyQfqFactor]
    rw [div_self (jsOr1_ne_zero _), mul_one, hk, roundToPenny_cent]
  · rw [if_neg hgate]

/-- C4 witness: at the concrete test series, qfq leaves the last
close (10.20) unchanged. -/
theorem qfq_anchor_last_close_witness :
    ((adjustRecords s3 [div1] "600000.SH" AdjustType.qfq).getD (s3.length - 1) default).close =
      (s3.getD (s3.length - 1) default).close :=
  qfq_anchor_last_close s3 [div1] "600000.SH" (by simp [s3])
    ⟨1020, by simp [s3, mkBar]; norm_num⟩

/-- C5: merging a batch into an existing series (each with unique
dates) is idempotent; every existing entry is kept; a batch entry
whose date already exists in the series is discarded (it appears in
the result only if it coincides with the existing entry); the result
has each date exactly once and is sorted ascending by date. -/
theorem mergeSeries_props (e b : List StockDaily)
    (he : (e.map (fun d => d.date)).Nodup) (hb : (b.map (fun d => d.date)).Nodup) :
    mergeSeries (mergeSeries e b) b = mergeSeries e b
    ∧ (∀ r ∈ e, r ∈ mergeSeries e b)
    ∧ (∀ r ∈ b, r.date ∈ e.map (fun d => d.date) → r ∈ mergeSeries e b → r ∈ e)
    ∧ ((mergeSeries e b).map (fun d => d.date)).Nodup
    ∧ List.Sorted dateLe (mergeSeries e b) := by
  have hperm : List.Perm (mergeSeries e b)
      (e ++ b.filter (fun d => ! (e.map (fun u => u.date)).contains d.date)) :=
    List.perm_insertionSort dateLe _
  have hsorted : List.Sorted dateLe (mergeSeries e b) :=
    List.sorted_insertionSort dateLe _
  have hcont_of_mem : ∀ (l : List String) (s : String), s ∈ l → l.contains s = true :=
    fun l s hs => List.elem_eq_true_of_mem hs
  have hmem_of_cont : ∀ (l : List String) (s : String), l.contains s = true → s ∈ l :=
    fun l s hs => List.mem_of_elem_eq_true hs
  have hdates : ∀ r ∈ b, ((mergeSeries e b).map (fun u => u.date)).contains r.date = true := by
    intro r hr
    refine hcont_of_mem _ _ ?_
    refine (List.Perm.mem_iff (hperm.map (fun u => u.date))).mpr ?_
    rw [List.map_append, List.mem_append]
    by_cases hc : r.date ∈ e.map (fun u => u.date)
    · exact Or.inl hc
    · right
      refine List.mem_map.mpr ⟨r, ?_, rfl⟩
      refine List.mem_filter.mpr ⟨hr, ?_⟩
      rw [Bool.not_eq_true']
      rcases hcase : (e.map (fun u => u.date)).contains r.date with _ | _
      · exact hcase
      · exact absurd (hmem_of_cont _ _ hcase) hc
  have hfilter2 :
      b.filter (fun d => ! ((mergeSeries e b).map (fun u => u.date)).contains d.date) = [] := by
    rw [List.filter_eq_nil_iff]
    intro r hr
    intro hcontra
    rw [Bool.not_eq_true'] at hcontra
    rw [hdates r hr] at hcontra
    exact Bool.noConfusion hcontra
  refine ⟨?_, ?_, ?_, ?_, hsorted⟩
  · have h1 : mergeSeries (mergeSeries e b) b =
        List.insertionSort dateLe (mergeSeries e b ++
          b.filter (fun d => ! ((mergeSeries e b).map (fun u => u.date)).contains d.date)) :=
      rfl
    rw [h1, hfilter2, List.append_nil]
    exact List.Sorted.insertionSort_eq hsorted
  · intro r hr
    exact hperm.mem_iff.mpr (List.mem_append.mpr (Or.inl hr))
  · intro r _ hdate hmem
    rcases List.mem_append.mp (hperm.mem_iff.mp hmem) with h | h
    · exact h
    · have hcond := List.of_mem_filter h
      rw [Bool.not_eq_true'] at hcond
      rw [hcont_of_mem _ _ hdate] at hcond
      exact Bool.noConfusion hcond
  · refine ((hperm.map (fun u => u.date)).nodup_iff).mpr ?_
    rw [List.map_append, List.nodup_append]
    refine ⟨he, ?_, ?_⟩
    · exact List.Nodup.sublist ((List.filter_sublist _).map _) hb
    · intro x hx hx2
      obtain ⟨r, hr, hrx⟩ := List.mem_map.mp hx2
      have hcond := List.of_mem_filter hr
      rw [Bool.not_eq_true'] at hcond
      rw [← hrx] at hx
      rw [hcont_of_mem _ _ hx] at hcond
      exact Bool.noConfusion hcond

/-- C5 witness: merging the overlapping batch `b1` into `e1` twice
equals merging it once. -/
theorem mergeSeries_props_witness :
    mergeSeries (mergeSeries e1 b1) b1 = mergeSeries e1 b1 :=
  (mergeSeries_props e1 b1 (by simp [e1, mkBar]) (by simp [b1, mkBar])).1

/-- C6: for a series of at least 250 bars, the selection filter
requires the rising-average check — ma(5) exceeding the close of
`stockData[length - 6]` (the bar 6 positions before the last,
counting the last bar as position 1) and ma(10) exceeding the close
of `stockData[length - 11]` — rejecting the instrument (returning
false) whenever that check fails. -/
theorem checkStock_rising_ma (stockData : List StockDaily) (stockName : String)
    (h : 250 ≤ stockData.length)
    (hfail : ¬ (maOf stockData 5 > (stockData.getD (stockData.length - 6) default).close
      ∧ maOf stockData 10 > (stockData.getD (stockData.length - 11) default).close)) :
    checkStock stockData stockName = false := by
  unfold checkStock
  rw [if_neg (by omega)]
  by_cases h1 : ¬ ((lastBar stockData).close > maOf stockData 5 ∧
      (lastBar stockData).close > maOf stockData 10)
  · rw [if_pos h1]
  · rw [if_neg h1, if_pos hfail]

/-- C6 witness: a concrete constant 250-bar series fails the rising
check (its 5-bar mean equals, rather than exceeds, the compared
close), so the filter rejects it. -/
theorem checkStock_rising_ma_witness : checkStock data250 "X" = false :=
  checkStock_rising_ma data250 "X" (by rw [data250, List.length_replicate])
    (by
      intro hcond
      have h5 : maOf data250 5 = 10 := by
        unfold maOf data250
        rw [List.length_replicate, List.drop_replicate, List.map_replicate,
          List.sum_replicate]
        norm_num [mkBar]
      have hc6 : (data250.getD (data250.length - 6) default).close = 10 := by
        rw [data250, List.length_replicate,
          List.getD_eq_getElem _ _ (by rw [List.length_replicate]; omega),
          List.getElem_replicate]
        norm_num [mkBar]
      rw [h5, hc6] at hcond
      exact absurd hcond.1 (by norm_num))

/-- The decode loop's fuel is irrelevant once it is at least the
buffer length (each iteration consumes at least 28 bytes). -/
theorem decodeChunks_congr : ∀ (f1 f2 : ℕ) (buf : List ℕ), buf.length ≤ f1 →
    buf.length ≤ f2 → decodeChunks f1 buf = decodeChunks f2 buf := by
  intro f1
  induction f1 with
  | zero =>
    intro f2 buf h1 _
    have hbuf : buf = [] := List.eq_nil_of_length_eq_zero (Nat.le_zero.mp h1)
    subst hbuf
    cases f2 <;> rfl
  | succ g ih =>
    intro f2 buf h1 h2
    cases buf with
    | nil => cases f2 <;> rfl
    | cons b rest =>
      cases f2 with
      | zero =>
        exfalso
        simp only [List.length_cons] at h2
        omega
      | succ f =>
        simp only [decodeChunks]
        by_cases hlen : 28 ≤ (b :: rest).length
        · rw [if_pos hlen, if_pos hlen,
            ih f ((b :: rest).drop 32)
              (by rw [List.length_drop]; simp only [List.length_cons] at h1 ⊢; omega)
              (by rw [List.length_drop]; simp only [List.length_cons] at h2 ⊢; omega)]
        · rw [if_neg hlen, if_neg hlen]

/-- One unfolding step of the decoder on a nonempty buffer with at
least 28 bytes. -/
theorem decodeDayBuf_step (b : ℕ) (rest : List ℕ) (hlen : 28 ≤ (b :: rest).length) :
    decodeDayBuf (b :: rest) =
      match decodeDayBuf ((b :: rest).drop 32) with
      | Except.ok recs => Except.ok (decodeOneRecord (b :: rest) :: recs)
      | Except.error e => Except.error e := by
  have hc := decodeChunks_congr rest.length ((b :: rest).drop 32).length ((b :: rest).drop 32)
    (by rw [List.length_drop]; simp only [List.length_cons]; omega) (le_refl _)
  show decodeChunks (b :: rest).length (b :: rest) = _
  rw [List.length_cons]
  simp only [decodeChunks]
  rw [if_pos hlen, hc]
  rfl

/-- One unfolding step of the decoder on a nonempty buffer with fewer
than 28 bytes: the out-of-range read aborts decoding. -/
theorem decodeDayBuf_short (b : ℕ) (rest : List ℕ) (hlen : ¬ 28 ≤ (b :: rest).length) :
    decodeDayBuf (b :: rest) = Except.error "range error" := by
  show decodeChunks (b :: rest).length (b :: rest) = _
  rw [List.length_cons]
  simp only [decodeChunks]
  rw [if_neg hlen]

/-- Decoding succeeds exactly when the trailing partial record (the
length modulo 32) is absent or at least 28 bytes long (bounded-length
auxiliary form). -/
theorem decode_ok_iff_aux : ∀ (n : ℕ) (buf : List ℕ), buf.length ≤ n →
    ((∃ l, decodeDayBuf buf = Except.ok l) ↔
      (buf.length % 32 = 0 ∨ 28 ≤ buf.length % 32)) := by
  intro n
  induction n with
  | zero =>
    intro buf h
    have hbuf : buf = [] := List.eq_nil_of_length_eq_zero (Nat.le_zero.mp h)
    subst hbuf
    exact ⟨fun _ => Or.inl rfl, fun _ => ⟨[], rfl⟩⟩
  | succ m ih =>
    intro buf h
    cases buf with
    | nil => exact ⟨fun _ => Or.inl rfl, fun _ => ⟨[], rfl⟩⟩
    | cons b rest =>
      by_cases hlen : 28 ≤ (b :: rest).length
      · rw [decodeDayBuf_step b rest hlen]
        have hdlen : ((b :: rest).drop 32).length ≤ m := by
          rw [List.length_drop]
          simp only [List.length_cons] at h ⊢
          omega
        have hih := ih ((b :: rest).drop 32) hdlen
        rw [List.length_drop] at hih
        constructor
        · rintro ⟨l, hl⟩
          cases hrec : decodeDayBuf ((b :: rest).drop 32) with
          | ok recs =>
            have hmod := hih.mp ⟨recs, hrec⟩
            simp only [List.length_cons] at hmod hlen ⊢
            omega
          | error e =>
            rw [hrec] at hl
            exact Except.noConfusion hl
        · intro hmod
          have hinner : ((b :: rest).length - 32) % 32 = 0 ∨
              28 ≤ ((b :: rest).length - 32) % 32 := by
            simp only [List.length_cons] at hmod hlen ⊢
            omega
          obtain ⟨recs, hrec⟩ := hih.mpr hinner
          rw [hrec]
          exact ⟨_, rfl⟩
      · rw [decodeDayBuf_short b rest hlen]
        constructor
        · rintro ⟨l, hl⟩
          exact Except.noConfusion hl
        · intro hmod
          exfalso
          simp only [List.length_cons] at hmod hlen
          omega

/-- On a buffer whose length is an exact multiple of 32, decoding
succeeds with one record per 32-byte chunk, in file order
(bounded-length auxiliary form). -/
theorem decode_records_aux : ∀ (n : ℕ) (buf : List ℕ), buf.length ≤ n →
    buf.length % 32 = 0 →
    ∃ l, decodeDayBuf buf = Except.ok l ∧ l.length = buf.length / 32 ∧
      ∀ (k : ℕ) (hk : k < l.length), l.get ⟨k, hk⟩ = decodeOneRecord (buf.drop (32 * k)) := by
  intro n
  induction n with
  | zero =>
    intro buf h _
    have hbuf : buf = [] := List.eq_nil_of_length_eq_zero (Nat.le_zero.mp h)
    subst hbuf
    exact ⟨[], rfl, by simp, fun k hk => absurd hk (by simp)⟩
  | succ m ih =>
    intro buf h hmod
    cases buf with
    | nil => exact ⟨[], rfl, by simp, fun k hk => absurd hk (by simp)⟩
    | cons b rest =>
      have hlen : 28 ≤ (b :: rest).length := by
        simp only [List.length_cons] at hmod ⊢
        omega
      have hdlen : ((b :: rest).drop 32).length ≤ m := by
        rw [List.length_drop]
        simp only [List.length_cons] at h ⊢
        omega
      have hdmod : ((b :: rest).drop 32).length % 32 = 0 := by
        rw [List.length_drop]
        simp only [List.length_cons] at hmod ⊢
        omega
      obtain ⟨l, hl, hllen, hlget⟩ := ih ((b :: rest).drop 32) hdlen hdmod
      refine ⟨decodeOneRecord (b :: rest) :: l, ?_, ?_, ?_⟩
      · rw [decodeDayBuf_step b rest hlen, hl]
      · rw [List.length_drop] at hllen
        simp only [List.length_cons] at hllen hmod ⊢
        omega
      · intro k hk
        cases k with
        | zero =>
          show decodeOneRecord (b :: rest) = decodeOneRecord ((b :: rest).drop (32 * 0))
          norm_num
        | succ j =>
          have hj : j < l.length := by
            simp only [List.length_cons] at hk
            omega
          show l.get ⟨j, hj⟩ = decodeOneRecord ((b :: rest).drop (32 * (j + 1)))
          rw [hlget j hj, List.drop_drop]
          have harith : 32 + 32 * j = 32 * (j + 1) := by ring
          rw [harith]

/-- C2 counterexample: a 28-byte buffer (one record truncated to the
seven fields the decoder actually reads) has length not a multiple of
32, yet decoding succeeds — the partial trailing record is silently
decoded rather than raising a decode error. -/
theorem decode_partial_counterexample :
    buf28.length % 32 ≠ 0 ∧ ∃ l, decodeDayBuf buf28 = Except.ok l :=
  ⟨by decide, (decode_ok_iff_aux buf28.length buf28 (le_refl _)).mpr (by decide)⟩

/-- C2 amended: decoding fails with a decode error exactly when the
trailing partial record is 1 to 27 bytes long (a 28-31 byte partial
record is silently decoded as a full record, because only the first
28 bytes of each 32-byte record are read); for buffers whose length
is a multiple of 32, the decoder produces one record per 32-byte
chunk in file order, each decoded by `decodeOneRecord` (prices and
turnover divided by 100, date reformatted YYYY-MM-DD, volume raw). -/
theorem decodeDayBuf_amended (buf : List ℕ) :
    ((∃ l, decodeDayBuf buf = Except.ok l) ↔
      (buf.length % 32 = 0 ∨ 28 ≤ buf.length % 32))
    ∧ (buf.length % 32 = 0 →
        ∃ l, decodeDayBuf buf = Except.ok l ∧ l.length = buf.length / 32 ∧
          ∀ (k : ℕ) (hk : k < l.length), l.get ⟨k, hk⟩ = decodeOneRecord (buf.drop (32 * k))) :=
  ⟨decode_ok_iff_aux buf.length buf (le_refl _),
    fun hmod => decode_records_aux buf.length buf (le_refl _) hmod⟩

/-- C2 amended witness: the 32-byte padded buffer decodes to exactly
one record, namely the decode of its single chunk. -/
theorem decodeDayBuf_amended_witness :
    ∃ l, decodeDayBuf buf32 = Except.ok l ∧ l.length = buf32.length / 32 ∧
      ∀ (k : ℕ) (hk : k < l.length), l.get ⟨k, hk⟩ = decodeOneRecord (buf32.drop (32 * k)) :=
  (decodeDayBuf_amended buf32).2 (by decide)

/-- A scan step preserves nonnegativity of `buyIndex` while holding
(entry sets it to a bar index, exit resets the holding flag). -/
theorem btStep_nonneg (code name : String) (data : List StockDaily) :
    ∀ (st : BState) (i : ℕ), (st.holding = true → 0 ≤ st.buyIndex) →
      ((btStep code name data st i).holding = true →
        0 ≤ (btStep code name data st i).buyIndex) := by
  intro st i hinv
  simp only [btStep]
  split_ifs with h1 h2 h3
  · intro _
    exact Int.ofNat_nonneg i
  · exact hinv
  · intro hcontra
    simp at hcontra
  · exact hinv

/-- After the scan loop, a held position has a nonnegative buy
index. -/
theorem btLoop_nonneg (code name : String) (data : List StockDaily) :
    (btLoop code name data).holding = true → 0 ≤ (btLoop code name data).buyIndex := by
  unfold btLoop
  exact foldl_inv (fun st => st.holding = true → 0 ≤ st.buyIndex)
    (btStep code name data) (btStep_nonneg code name data) _ initBState
    (fun h => by simp [initBState] at h)

/-- C7: when the scan loop ends still holding, the backtest emits
exactly one additional TradeRecord beyond the loop's trades, whose
sellDate is the final bar's date, sellPrice the final bar's close,
and holdDays the index distance to the last bar — without any
moving-average exit condition. -/
theorem backtest_forced_close (code name : String) (data : List StockDaily)
    (h30 : 30 ≤ data.length) (hold : (btLoop code name data).holding = true) :
    backtestMultiTrades code name data =
      (btLoop code name data).trades ++
        [{ code := code, name := name,
           buyDate := (btLoop code name data).buyDate,
           sellDate := (data.getD (data.length - 1) default).date,
           buyPrice := (btLoop code name data).buyPrice,
           sellPrice := (data.getD (data.length - 1) default).close,
           holdDays := ((data.length : ℤ) - 1) - (btLoop code name data).buyIndex,
           returnPct := ((data.getD (data.length - 1) default).close -
               (btLoop code name data).buyPrice) / (btLoop code name data).buyPrice * 100 }] := by
  simp only [backtestMultiTrades]
  rw [if_neg (by omega), if_pos ⟨hold, btLoop_nonneg code name data hold⟩]

/-- The concrete 30-bar series ends with the backtest still holding
(entry fires at index 20, the close never falls below the 10-bar
mean afterwards). -/
theorem btLoop_data30_holding : (btLoop "c" "n" data30).holding = true := by
  unfold btLoop
  rw [show List.range (data30.length - 20) = [0, 1, 2, 3, 4, 5, 6, 7, 8, 9] from rfl]
  norm_num [btStep, data30, mkBar, sma, jsMax, initBState]

/-- C7 witness: the forced-close equation instantiated at the
concrete 30-bar series. -/
theorem backtest_forced_close_witness :
    backtestMultiTrades "c" "n" data30 =
      (btLoop "c" "n" data30).trades ++
        [{ code := "c", name := "n",
           buyDate := (btLoop "c" "n" data30).buyDate,
           sellDate := (data30.getD (data30.length - 1) default).date,
           buyPrice := (btLoop "c" "n" data30).buyPrice,
           sellPrice := (data30.getD (data30.length - 1) default).close,
           holdDays := ((data30.length : ℤ) - 1) - (btLoop "c" "n" data30).buyIndex,
           returnPct := ((data30.getD (data30.length - 1) default).close -
               (btLoop "c" "n" data30).buyPrice) / (btLoop "c" "n" data30).buyPrice * 100 }] :=
  backtest_forced_close "c" "n" data30 (by decide) btLoop_data30_holding

/-- One scan step preserves the non-overlap invariant, moving the
cursor past the processed index. -/
theorem btStep_BInv (code name : String) (data : List StockDaily) (st : BState) (i n : ℕ)
    (hn : n ≤ i) (hi : i < data.length) (h : BInv data st n) :
    BInv data (btStep code name data st i) (i + 1) := by
  obtain ⟨ps, hf, hchain, hbound, hhold⟩ := h
  simp only [btStep]
  split_ifs with h1 h2 h3
  · -- flat, entry fires: buy at index i
    refine ⟨ps, hf, hchain, fun p hp => by have := hbound p hp; omega, ?_⟩
    intro _
    exact ⟨i, rfl, by omega, rfl, fun p hp => by have := hbound p hp; omega⟩
  · -- flat, no entry
    refine ⟨ps, hf, hchain, fun p hp => by have := hbound p hp; omega, ?_⟩
    intro hh
    rw [h1] at hh
    exact Bool.noConfusion hh
  · -- holding, exit fires: emit a trade for (buy index, i)
    have hht : st.holding = true := by
      revert h1
      cases st.holding <;> simp
    obtain ⟨bi, hbi, hbin, hbdate, hbabove⟩ := hhold hht
    refine ⟨ps ++ [(bi, i)], ?_, ?_, ?_, ?_⟩
    · refine List.rel_append hf ?_
      exact List.Forall₂.cons ⟨hbdate, rfl, by omega, hi⟩ List.Forall₂.nil
    · rw [List.chain'_append]
      refine ⟨hchain, List.chain'_singleton _, ?_⟩
      intro x hx y hy
      simp only [List.head?_cons, Option.mem_def, Option.some.injEq] at hy
      subst hy
      exact hbabove x (List.mem_of_mem_getLast? hx)
    · intro p hp
      rcases List.mem_append.mp hp with hp | hp
      · have := hbound p hp
        omega
      · simp only [List.mem_singleton] at hp
        subst hp
        omega
    · intro hh
      simp at hh
  · -- holding, no exit
    refine ⟨ps, hf, hchain, fun p hp => by have := hbound p hp; omega, ?_⟩
    intro hh
    obtain ⟨bi, hbi, hbin, hbdate, hbabove⟩ := hhold hh
    exact ⟨bi, hbi, by omega, hbdate, hbabove⟩

/-- Folding the scan step over a strictly increasing list of in-range
indices preserves the invariant up to some final cursor. -/
theorem btLoop_BInv_aux (code name : String) (data : List StockDaily) :
    ∀ (idxs : List ℕ) (st : BState) (n : ℕ), n ≤ data.length →
      (∀ i ∈ idxs, n ≤ i ∧ i < data.length) → List.Pairwise (fun a b => a < b) idxs →
      BInv data st n →
      ∃ m, m ≤ data.length ∧ BInv data (idxs.foldl (btStep code name data) st) m
  | [], _, n, hnd, _, _, h => ⟨n, hnd, h⟩
  | i :: rest, st, n, _, hall, hpw, h => by
    have hi := hall i (List.mem_cons_self i rest)
    have hstep := btStep_BInv code name data st i n hi.1 hi.2 h
    refine btLoop_BInv_aux code name data rest (btStep code name data st i) (i + 1)
      (by omega) ?_ (List.pairwise_cons.mp hpw).2 hstep
    intro j hj
    have hij := (List.pairwise_cons.mp hpw).1 j hj
    exact ⟨by omega, (hall j (List.mem_cons_of_mem i hj)).2⟩

/-- Transfer of the index chain to the date chain on the emitted
trades, given strictly increasing dates. -/
theorem trades_chain_of_indices (data : List StockDaily)
    (hmono : ∀ a b2, a < b2 → b2 < data.length →
      (data.getD a default).date < (data.getD b2 default).date) :
    ∀ (ts : List TradeRecord) (ps : List (ℕ × ℕ)),
      List.Forall₂ (tradeOfIndices data) ts ps →
      List.Chain' (fun p q => p.2 < q.1) ps →
      List.Chain' (fun t u => t.sellDate < u.buyDate) ts
      ∧ ∀ t ∈ ts, t.buyDate ≤ t.sellDate := by
  intro ts ps hf
  induction hf with
  | nil =>
    intro _
    exact ⟨List.chain'_nil, fun t ht => absurd ht (List.not_mem_nil t)⟩
  | @cons t p ts2 ps2 htp hrest ih =>
    intro hchain
    have hchain2 : List.Chain' (fun p q => p.2 < q.1) ps2 :=
      (List.chain'_cons'.mp hchain).2
    obtain ⟨ihchain, ihle⟩ := ih hchain2
    obtain ⟨hbd, hsd, hple, hp2⟩ := htp
    constructor
    · rw [List.chain'_cons']
      refine ⟨?_, ihchain⟩
      intro u hu
      cases hrest with
      | nil => simp at hu
      | @cons u2 q ts3 ps3 huq hrest2 =>
        simp only [List.head?_cons, Option.mem_def, Option.some.injEq] at hu
        subst hu
        obtain ⟨hubd, _, huple, hup2⟩ := huq
        have hrel : p.2 < q.1 := (List.chain'_cons'.mp hchain).1 q (by simp)
        rw [hsd, hubd]
        exact hmono p.2 q.1 hrel (by omega)
    · intro u hu
      rcases List.mem_cons.mp hu with hu | hu
      · subst hu
        rw [hbd, hsd]
        rcases Nat.lt_or_ge p.1 p.2 with hlt | hge
        · exact le_of_lt (hmono p.1 p.2 hlt hp2)
        · have : p.1 = p.2 := by omega
          rw [this]
      · exact ihle u hu

/-- C8: for a series whose dates are strictly increasing (sorted
ascending with unique dates, the data-model invariant), the emitted
TradeRecords form non-overlapping ordered intervals: within each
trade buyDate <= sellDate, and each trade's buyDate is strictly after
the previous trade's sellDate. -/
theorem backtest_nonoverlap (code name : String) (data : List StockDaily)
    (hmono : (data.map (fun d => d.date)).Pairwise (fun a b2 => a < b2)) :
    List.Chain' (fun t u => t.sellDate < u.buyDate) (backtestMultiTrades code name data)
    ∧ ∀ t ∈ backtestMultiTrades code name data, t.buyDate ≤ t.sellDate := by
  have hmono2 : ∀ a b2, a < b2 → b2 < data.length →
      (data.getD a default).date < (data.getD b2 default).date := by
    intro a b2 hab hb
    have ha : a < data.length := lt_trans hab hb
    rw [List.getD_eq_getElem _ _ ha, List.getD_eq_getElem _ _ hb]
    have hpg := List.pairwise_iff_get.mp hmono
      ⟨a, by simpa using ha⟩ ⟨b2, by simpa using hb⟩ (by simpa using hab)
    simpa using hpg
  simp only [backtestMultiTrades]
  split_ifs with hlen hforce
  · exact ⟨List.chain'_nil, fun t ht => absurd ht (List.not_mem_nil t)⟩
  · -- still holding: forced close appended
    obtain ⟨m, hm, ps, hf, hchain, hbound, hhold⟩ :=
      btLoop_BInv_aux code name data
        ((List.range (data.length - 20)).map (fun k => k + 20)) initBState 20
        (by omega)
        (by
          intro i hi
          obtain ⟨k, hk, hki⟩ := List.mem_map.mp hi
          have hkr := List.mem_range.mp hk
          omega)
        ((List.pairwise_lt_range _).map _ (by intro a b2 hab; omega))
        ⟨[], List.Forall₂.nil, List.chain'_nil, by simp, fun hh => by simp [initBState] at hh⟩
    obtain ⟨bi, hbi, hbin, hbdate, hbabove⟩ := hhold hforce.1
    have hlast : data.length - 1 < data.length := by omega
    refine trades_chain_of_indices data hmono2 _ (ps ++ [(bi, data.length - 1)]) ?_ ?_
    · refine List.rel_append hf ?_
      exact List.Forall₂.cons ⟨hbdate, rfl, by omega, hlast⟩ List.Forall₂.nil
    · rw [List.chain'_append]
      refine ⟨hchain, List.chain'_singleton _, ?_⟩
      intro x hx y hy
      simp only [List.head?_cons, Option.mem_def, Option.some.injEq] at hy
      subst hy
      exact hbabove x (List.mem_of_mem_getLast? hx)
  · -- flat at the end: the loop's trades as they are
    obtain ⟨m, hm, ps, hf, hchain, hbound, hhold⟩ :=
      btLoop_BInv_aux code name data
        ((List.range (data.length - 20)).map (fun k => k + 20)) initBState 20
        (by omega)
        (by
          intro i hi
          obtain ⟨k, hk, hki⟩ := List.mem_map.mp hi
          have hkr := List.mem_range.mp hk
          omega)
        ((List.pairwise_lt_range _).map _ (by intro a b2 hab; omega))
        ⟨[], List.Forall₂.nil, List.chain'_nil, by simp, fun hh => by simp [initBState] at hh⟩
    exact trades_chain_of_indices data hmono2 _ ps hf hchain

/-- C8 witness: the theorem instantiated at a concrete series (the
empty one, whose date list is trivially strictly sorted). -/
theorem backtest_nonoverlap_witness :
    List.Chain' (fun t u => t.sellDate < u.buyDate) (backtestMultiTrades "c" "n" [])
    ∧ ∀ t ∈ backtestMultiTrades "c" "n" [], t.buyDate ≤ t.sellDate :=
  backtest_nonoverlap "c" "n" [] (by simp)
